import Mathlib

/-!
Verification development for `ocr/utils.py`: a shallow embedding of the
utility components (running-average meter, checkpoint file-retention
policy, best-effort pretrained-weight merge, validation loop driver)
together with theorems settling the specified claims.

Modelling conventions:
* Python numbers (floats and ints flowing through arithmetic) are
  modelled as rationals `ℚ`; Python division raises `ZeroDivisionError`
  on a zero denominator, so fallible divisions are modelled with
  `Option` (`none` = the call raises).
* A Python dict of tensors is an association list with unique keys,
  in insertion order; a tensor is its shape together with its payload.
* The filesystem is a `Finset String` of the paths that exist on disk;
  `os.remove` is `Finset.erase`, `os.path.exists` is membership.
* `logger.info` calls append the formatted message to a log list.
-/

/-- State of `AverageMeter`: fields `avg`, `sum`, `count` exactly as in
the Python class. -/
structure AverageMeter where
  avg : ℚ
  sum : ℚ
  count : ℚ
deriving DecidableEq

/-- `AverageMeter.reset`: sets `avg = 0`, `sum = 0`, `count = 0`. -/
def AverageMeter.reset (_m : AverageMeter) : AverageMeter :=
  { avg := 0, sum := 0, count := 0 }

/-- A freshly constructed meter: `__init__` just calls `reset`. -/
def initMeter : AverageMeter :=
  AverageMeter.reset { avg := 0, sum := 0, count := 0 }

/-- `AverageMeter.update(val, n)`: `sum += val * n; count += n;
avg = sum / count`.  The division raises `ZeroDivisionError` in Python
exactly when the updated `count` is zero, hence the `Option`. -/
def AverageMeter.update (m : AverageMeter) (val : ℚ) (n : ℚ) : Option AverageMeter :=
  let sum := m.sum + val * n
  let count := m.count + n
  if count = 0 then none
  else some { avg := sum / count, sum := sum, count := count }

/-- Run a sequence of `update` calls; a raised `ZeroDivisionError`
aborts the sequence (`none`). -/
def updateAll (m : AverageMeter) : List (ℚ × ℚ) → Option AverageMeter
  | [] => some m
  | p :: l => (m.update p.1 p.2).bind fun m1 => updateAll m1 l

/-- Sum of `value * weight` over a list of `(value, weight)` pairs. -/
def wsum (l : List (ℚ × ℚ)) : ℚ :=
  (l.map fun p => p.1 * p.2).sum

/-- Sum of the weights over a list of `(value, weight)` pairs. -/
def wtot (l : List (ℚ × ℚ)) : ℚ :=
  (l.map fun p => p.2).sum

@[simp]
theorem wsum_nil : wsum [] = 0 := rfl

@[simp]
theorem wsum_cons (p : ℚ × ℚ) (l : List (ℚ × ℚ)) :
    wsum (p :: l) = p.1 * p.2 + wsum l := by
  simp [wsum]

@[simp]
theorem wtot_nil : wtot [] = 0 := rfl

@[simp]
theorem wtot_cons (p : ℚ × ℚ) (l : List (ℚ × ℚ)) :
    wtot (p :: l) = p.2 + wtot l := by
  simp [wtot]

theorem wtot_nonneg (l : List (ℚ × ℚ)) (h : ∀ p ∈ l, 0 ≤ p.2) : 0 ≤ wtot l := by
  induction l with
  | nil => simp
  | cons p l ih =>
      have hp := h p (by simp)
      have hl := ih fun q hq => h q (by simp [hq])
      simp only [wtot_cons]
      linarith

/-- Running `updateAll` from a meter with strictly positive count and
nonnegative weights never raises, and accumulates the weighted sums. -/
theorem updateAll_pos (l : List (ℚ × ℚ)) :
    ∀ m : AverageMeter, 0 < m.count → (∀ p ∈ l, 0 ≤ p.2) →
    updateAll m l =
      some { avg := (m.sum + wsum l) / (m.count + wtot l),
             sum := m.sum + wsum l,
             count := m.count + wtot l } ∨
    (l = [] ∧ updateAll m l = some m) := by
  induction l with
  | nil => exact fun m _ _ => Or.inr ⟨rfl, rfl⟩
  | cons p l ih =>
      intro m hm hw
      left
      have hp : 0 ≤ p.2 := hw p (by simp)
      have hc : 0 < m.count + p.2 := by linarith
      have hc' : m.count + p.2 ≠ 0 := ne_of_gt hc
      have hstep : m.update p.1 p.2 =
          some { avg := (m.sum + p.1 * p.2) / (m.count + p.2),
                 sum := m.sum + p.1 * p.2,
                 count := m.count + p.2 } := by
        simp [AverageMeter.update, hc']
      have htail := ih { avg := (m.sum + p.1 * p.2) / (m.count + p.2),
                         sum := m.sum + p.1 * p.2,
                         count := m.count + p.2 }
        hc (fun q hq => hw q (by simp [hq]))
      rcases htail with htail | ⟨hnil, htail⟩
      · simp only [updateAll, hstep, Option.some_bind]
        rw [htail]
        simp only [wsum_cons, wtot_cons, Option.some_inj]
        congr 1 <;> ring
      · subst hnil
        simp only [updateAll, hstep, Option.some_bind, Option.some_inj]
        simp [wsum, wtot]

/-- Claim C7: starting from a freshly reset meter, after any finite
sequence of `update(value, weight)` calls in which every weight is ≥ 1,
the resulting `avg` equals the sum of `value*weight` over the sequence
divided by the sum of the weights. -/
theorem averageMeter_weighted_mean (l : List (ℚ × ℚ)) (h : ∀ p ∈ l, 1 ≤ p.2) :
    (updateAll initMeter l).map AverageMeter.avg = some (wsum l / wtot l) := by
  cases l with
  | nil => simp [updateAll, initMeter, AverageMeter.reset, wsum, wtot]
  | cons p l =>
      have hp : 1 ≤ p.2 := h p (by simp)
      have hp' : p.2 ≠ 0 := by linarith
      have hstep : initMeter.update p.1 p.2 =
          some { avg := p.1 * p.2 / p.2, sum := p.1 * p.2, count := p.2 } := by
        simp [AverageMeter.update, initMeter, AverageMeter.reset, hp']
      have hpos : (0:ℚ) < p.2 := by linarith
      have htail := updateAll_pos l { avg := p.1 * p.2 / p.2, sum := p.1 * p.2, count := p.2 }
        hpos (fun q hq => le_trans zero_le_one (h q (by simp [hq])))
      rcases htail with htail | ⟨hnil, htail⟩
      · simp only [updateAll, hstep, Option.some_bind, htail]
        simp [wsum_cons, wtot_cons]
      · subst hnil
        simp only [updateAll, hstep, Option.some_bind, htail]
        simp [wsum, wtot]

/-- Witness for `averageMeter_weighted_mean` at a concrete input. -/
theorem averageMeter_weighted_mean_witness :
    (∀ p ∈ [((3:ℚ),(1:ℚ)), (5,2)], 1 ≤ p.2) ∧
    (updateAll initMeter [((3:ℚ),(1:ℚ)), (5,2)]).map AverageMeter.avg =
      some (wsum [((3:ℚ),(1:ℚ)), (5,2)] / wtot [((3:ℚ),(1:ℚ)), (5,2)]) :=
  ⟨by decide, averageMeter_weighted_mean _ (by decide)⟩

/-- Claim C8 counterexample: `update(5, 0)` on a freshly reset meter
(count = 0) makes the new count 0, so `avg = sum / count` divides by
zero and the Python call raises `ZeroDivisionError` — it does not leave
the average unchanged at 0 as the claim states. -/
theorem averageMeter_update_zero_count_fails :
    initMeter.update 5 0 = none := by
  simp [AverageMeter.update, initMeter, AverageMeter.reset]

/-- Claim C8 (amended): for every meter state and `update(value, weight)`
call with weight ≥ 0 whose updated count is nonzero, `sum` is increased
by `value*weight`, `count` by `weight`, and `avg` becomes the new
`sum / count`; when the updated count is zero (e.g. `update(value, 0)`
on a meter with count = 0) the division raises and the update fails. -/
theorem averageMeter_update_spec (m : AverageMeter) (val n : ℚ)
    (h0 : 0 ≤ n) (h1 : m.count + n ≠ 0) :
    m.update val n =
      some { avg := (m.sum + val * n) / (m.count + n),
             sum := m.sum + val * n, count := m.count + n } := by
  simp [AverageMeter.update, h1]

/-- Witness for `averageMeter_update_spec` at a concrete input. -/
theorem averageMeter_update_spec_witness :
    (0:ℚ) ≤ 2 ∧ initMeter.count + 2 ≠ 0 ∧
    initMeter.update 4 2 =
      some { avg := (initMeter.sum + 4 * 2) / (initMeter.count + 2),
             sum := initMeter.sum + 4 * 2, count := initMeter.count + 2 } :=
  ⟨by norm_num, by simp [initMeter, AverageMeter.reset],
   averageMeter_update_spec initMeter 4 2 (by norm_num)
     (by simp [initMeter, AverageMeter.reset])⟩

/-- State of a `FilesLimitControl` instance: the registered paths in
registration order and the configured limit (`max_weights_to_save`,
whose default in `__init__` is 2 even though the docstring says 3). -/
structure FilesLimitControl where
  saved_weights_paths : List String
  max_weights_to_save : Nat
deriving DecidableEq

/-- `FilesLimitControl.__init__`: empty registry; the default for
`max_weights_to_save` in the source is 2. -/
def FilesLimitControl.mkNew (max_weights_to_save : Nat := 2) : FilesLimitControl :=
  { saved_weights_paths := [], max_weights_to_save := max_weights_to_save }

/-- A `FilesLimitControl` instance together with its observable
environment: the set of paths existing on disk and the emitted log. -/
structure FSWorld where
  flc : FilesLimitControl
  files : Finset String
  log : List String
deriving DecidableEq

/-- `FilesLimitControl.__call__(save_path)`: append the path; if the
registry now exceeds the limit, pop the oldest entry and, when that
path exists on disk, delete the file and log the removal. -/
def flcCall (w : FSWorld) (save_path : String) : FSWorld :=
  let saved := w.flc.saved_weights_paths ++ [save_path]
  if w.flc.max_weights_to_save < saved.length then
    let old_weights_path := saved.headI
    if old_weights_path ∈ w.files then
      { flc := { w.flc with saved_weights_paths := saved.tail },
        files := w.files.erase old_weights_path,
        log := w.log ++ ["Weigths removed \x27" ++ old_weights_path ++ "\x27"] }
    else
      { flc := { w.flc with saved_weights_paths := saved.tail },
        files := w.files, log := w.log }
  else
    { w with flc := { w.flc with saved_weights_paths := saved } }

/-- A sequence of `__call__` registrations, in order. -/
def flcRun (w : FSWorld) (ps : List String) : FSWorld :=
  ps.foldl flcCall w

theorem flcRun_nil (w : FSWorld) : flcRun w [] = w := rfl

theorem flcRun_cons (w : FSWorld) (p : String) (ps : List String) :
    flcRun w (p :: ps) = flcRun (flcCall w p) ps := rfl

/-- One registration under the limit just appends. -/
theorem flcCall_under (w : FSWorld) (p : String)
    (h : w.flc.saved_weights_paths.length < w.flc.max_weights_to_save) :
    flcCall w p =
      { w with flc := { w.flc with
          saved_weights_paths := w.flc.saved_weights_paths ++ [p] } } := by
  have hnot : ¬ w.flc.max_weights_to_save <
      w.flc.saved_weights_paths.length + 1 := by omega
  simp [flcCall, hnot]

/-- One registration at the limit pops the oldest entry and erases it
from disk (a no-op erase when the file is absent). -/
theorem flcCall_full (w : FSWorld) (p : String)
    (h : w.flc.max_weights_to_save ≤ w.flc.saved_weights_paths.length) :
    (flcCall w p).flc.saved_weights_paths =
        (w.flc.saved_weights_paths ++ [p]).tail
    ∧ (flcCall w p).files =
        w.files.erase (w.flc.saved_weights_paths ++ [p]).headI
    ∧ (flcCall w p).flc.max_weights_to_save = w.flc.max_weights_to_save := by
  have hlt : w.flc.max_weights_to_save <
      w.flc.saved_weights_paths.length + 1 := by omega
  by_cases hmem : (w.flc.saved_weights_paths ++ [p]).headI ∈ w.files
  · simp [flcCall, hlt, hmem]
  · simp [flcCall, hlt, hmem, Finset.erase_eq_of_not_mem hmem]

/-- Characterization of a run of registrations starting within the
limit: the retained paths are the most recent `N` registrations (as a
`drop`), exactly the evicted oldest paths have been erased from disk
(as a `take`), and the limit itself never changes. -/
theorem flcRun_spec (ps : List String) :
    ∀ (s : List String) (N : Nat) (fs : Finset String) (lg : List String),
    s.length ≤ N →
    (flcRun ⟨⟨s, N⟩, fs, lg⟩ ps).flc.saved_weights_paths =
      (s ++ ps).drop (s.length + ps.length - N)
    ∧ (flcRun ⟨⟨s, N⟩, fs, lg⟩ ps).files =
      fs \ ((s ++ ps).take (s.length + ps.length - N)).toFinset
    ∧ (flcRun ⟨⟨s, N⟩, fs, lg⟩ ps).flc.max_weights_to_save = N := by
  induction ps with
  | nil =>
      intro s N fs lg h
      refine ⟨?_, ?_, rfl⟩
      · simp [flcRun, Nat.sub_eq_zero_of_le h]
      · simp [flcRun, Nat.sub_eq_zero_of_le h]
  | cons p ps ih =>
      intro s N fs lg h
      rw [flcRun_cons]
      rcases lt_or_eq_of_le h with hlt | heq
      · -- still under the limit: the call just appends
        have hcall : flcCall ⟨⟨s, N⟩, fs, lg⟩ p = ⟨⟨s ++ [p], N⟩, fs, lg⟩ := by
          have hnot : ¬ N < s.length + 1 := by omega
          simp [flcCall, hnot]
        rw [hcall]
        obtain ⟨hs, hf, hm⟩ := ih (s ++ [p]) N fs lg (by simp; omega)
        refine ⟨?_, ?_, hm⟩
        · rw [hs]
          have harith : (s ++ [p]).length + ps.length - N =
              s.length + (p :: ps).length - N := by simp; omega
          rw [harith, List.append_assoc, List.singleton_append]
        · rw [hf]
          have harith : (s ++ [p]).length + ps.length - N =
              s.length + (p :: ps).length - N := by simp; omega
          rw [harith, List.append_assoc, List.singleton_append]
      · -- at the limit: the call pops and erases the oldest path
        obtain ⟨q, t, hqt⟩ :=
          List.exists_cons_of_ne_nil (show s ++ [p] ≠ [] by simp)
        have hlen : s.length + 1 = t.length + 1 := by
          have := congrArg List.length hqt
          simpa using this
        have hcall : ∃ lg2, flcCall ⟨⟨s, N⟩, fs, lg⟩ p = ⟨⟨t, N⟩, fs.erase q, lg2⟩ := by
          have hlt : N < s.length + 1 := by omega
          have hlt2 : N < t.length + 1 := by omega
          by_cases hmem : q ∈ fs
          · exact ⟨lg ++ ["Weigths removed \x27" ++ q ++ "\x27"],
              by simp [flcCall, hlt, hlt2, hqt, hmem]⟩
          · refine ⟨lg, ?_⟩
            simp [flcCall, hlt, hlt2, hqt, hmem, Finset.erase_eq_of_not_mem hmem]
        obtain ⟨lg2, hcall⟩ := hcall
        rw [hcall]
        obtain ⟨hs, hf, hm⟩ := ih t N (fs.erase q) lg2 (by omega)
        have hsplit : s ++ p :: ps = q :: (t ++ ps) := by
          rw [show s ++ p :: ps = (s ++ [p]) ++ ps by simp, hqt]
          rfl
        refine ⟨?_, ?_, hm⟩
        · rw [hs, hsplit]
          have h1 : s.length + (p :: ps).length - N = ps.length + 1 := by simp; omega
          have h2 : t.length + ps.length - N = ps.length := by omega
          rw [h1, h2, List.drop_succ_cons]
        · rw [hf, hsplit]
          have h1 : s.length + (p :: ps).length - N = ps.length + 1 := by simp; omega
          have h2 : t.length + ps.length - N = ps.length := by omega
          rw [h1, h2, List.take_succ_cons]
          ext x
          simp only [Finset.mem_sdiff, List.toFinset_cons, Finset.mem_insert,
            Finset.mem_erase, List.mem_toFinset]
          tauto

/-- Claim C2: for a fresh `FilesLimitControl` with capacity N ≥ 1,
after registering M > N distinct paths in sequence, the retained
sequence is exactly the N most recently registered paths in
registration order (so it has length N), and exactly the M−N
earliest-registered paths have been evicted, their files deleted from
disk whenever they existed there. -/
theorem filesLimitControl_eviction (N : Nat) (ps : List String) (fs : Finset String)
    (hN : 1 ≤ N) (hM : N < ps.length) (hnd : ps.Nodup) :
    (flcRun ⟨FilesLimitControl.mkNew N, fs, []⟩ ps).flc.saved_weights_paths =
      ps.drop (ps.length - N)
    ∧ (flcRun ⟨FilesLimitControl.mkNew N, fs, []⟩ ps).flc.saved_weights_paths.length = N
    ∧ (flcRun ⟨FilesLimitControl.mkNew N, fs, []⟩ ps).files =
      fs \ (ps.take (ps.length - N)).toFinset := by
  obtain ⟨hs, hf, hm⟩ := flcRun_spec ps [] N fs [] (by simp)
  have hs' : (flcRun ⟨FilesLimitControl.mkNew N, fs, []⟩ ps).flc.saved_weights_paths =
      ps.drop (ps.length - N) := by simpa [FilesLimitControl.mkNew] using hs
  refine ⟨hs', ?_, ?_⟩
  · rw [hs', List.length_drop]
    omega
  · simpa [FilesLimitControl.mkNew] using hf

/-- Witness for `filesLimitControl_eviction`: the concrete scenario of
the spec (capacity 2, register w1, w2, w3, all existing on disk). -/
theorem filesLimitControl_eviction_witness :
    (1 ≤ 2 ∧ 2 < (["w1", "w2", "w3"] : List String).length ∧
      (["w1", "w2", "w3"] : List String).Nodup) ∧
    ((flcRun ⟨FilesLimitControl.mkNew 2, {"w1", "w2", "w3"}, []⟩
        ["w1", "w2", "w3"]).flc.saved_weights_paths =
      (["w1", "w2", "w3"] : List String).drop ((["w1", "w2", "w3"] : List String).length - 2)
    ∧ (flcRun ⟨FilesLimitControl.mkNew 2, {"w1", "w2", "w3"}, []⟩
        ["w1", "w2", "w3"]).flc.saved_weights_paths.length = 2
    ∧ (flcRun ⟨FilesLimitControl.mkNew 2, {"w1", "w2", "w3"}, []⟩
        ["w1", "w2", "w3"]).files =
      ({"w1", "w2", "w3"} : Finset String) \
        ((["w1", "w2", "w3"] : List String).take
          ((["w1", "w2", "w3"] : List String).length - 2)).toFinset) :=
  ⟨⟨by decide, by decide, by decide⟩,
   filesLimitControl_eviction 2 ["w1", "w2", "w3"] {"w1", "w2", "w3"}
     (by decide) (by decide) (by decide)⟩

/-- Claim C3: for every capacity N ≥ 1 and every sequence of register
calls on a fresh instance, the retained sequence never exceeds the
capacity after a registration call completes (every prefix of calls is
itself such a sequence, so this covers all intermediate states). -/
theorem filesLimitControl_capacity_invariant (N : Nat) (ps : List String)
    (fs : Finset String) (hN : 1 ≤ N) :
    (flcRun ⟨FilesLimitControl.mkNew N, fs, []⟩ ps).flc.saved_weights_paths.length ≤ N := by
  obtain ⟨hs, _, _⟩ := flcRun_spec ps [] N fs [] (by simp)
  have hs' : (flcRun ⟨FilesLimitControl.mkNew N, fs, []⟩ ps).flc.saved_weights_paths =
      ps.drop (ps.length - N) := by simpa [FilesLimitControl.mkNew] using hs
  rw [hs', List.length_drop]
  omega

/-- Witness for `filesLimitControl_capacity_invariant`. -/
theorem filesLimitControl_capacity_invariant_witness :
    1 ≤ 1 ∧
    (flcRun ⟨FilesLimitControl.mkNew 1, ∅, []⟩
      ["a", "b"]).flc.saved_weights_paths.length ≤ 1 :=
  ⟨by decide, filesLimitControl_capacity_invariant 1 ["a", "b"] ∅ (by decide)⟩

/-- Claim C6: a register call that triggers an eviction always removes
the oldest path from the registry; if that path is not on disk the
deletion is silently skipped (filesystem and log unchanged, no error);
if it is on disk, the file is deleted and exactly one informational log
line naming the removed path is emitted; at most one file is deleted by
the call. -/
theorem filesLimitControl_evict_delete (w : FSWorld) (p : String)
    (h : w.flc.max_weights_to_save < w.flc.saved_weights_paths.length + 1) :
    (flcCall w p).flc.saved_weights_paths = (w.flc.saved_weights_paths ++ [p]).tail
    ∧ ((w.flc.saved_weights_paths ++ [p]).headI ∉ w.files →
        (flcCall w p).files = w.files ∧ (flcCall w p).log = w.log)
    ∧ ((w.flc.saved_weights_paths ++ [p]).headI ∈ w.files →
        (flcCall w p).files = w.files.erase (w.flc.saved_weights_paths ++ [p]).headI
        ∧ (flcCall w p).log = w.log ++
            ["Weigths removed \x27" ++ (w.flc.saved_weights_paths ++ [p]).headI ++ "\x27"])
    ∧ w.files.card ≤ (flcCall w p).files.card + 1 := by
  obtain ⟨⟨s, N⟩, files, log⟩ := w
  simp only at h
  by_cases hmem : (s ++ [p]).headI ∈ files
  · have hcard := Finset.card_erase_of_mem hmem
    have hpos : 0 < files.card := Finset.card_pos.mpr ⟨_, hmem⟩
    refine ⟨?_, ?_, ?_, ?_⟩ <;> simp [flcCall, h, hmem] <;> omega
  · refine ⟨?_, ?_, ?_, ?_⟩ <;> simp [flcCall, h, hmem] <;> omega

/-- Witness for `filesLimitControl_evict_delete`. -/
theorem filesLimitControl_evict_delete_witness :
    ((1:Nat) < ["a"].length + 1) ∧
    ((flcCall ⟨⟨["a"], 1⟩, {"a"}, []⟩ "b").flc.saved_weights_paths =
        ((["a"] : List String) ++ ["b"]).tail
    ∧ (((["a"] : List String) ++ ["b"]).headI ∉ ({"a"} : Finset String) →
        (flcCall ⟨⟨["a"], 1⟩, {"a"}, []⟩ "b").files = {"a"}
        ∧ (flcCall ⟨⟨["a"], 1⟩, {"a"}, []⟩ "b").log = [])
    ∧ (((["a"] : List String) ++ ["b"]).headI ∈ ({"a"} : Finset String) →
        (flcCall ⟨⟨["a"], 1⟩, {"a"}, []⟩ "b").files =
          ({"a"} : Finset String).erase ((["a"] : List String) ++ ["b"]).headI
        ∧ (flcCall ⟨⟨["a"], 1⟩, {"a"}, []⟩ "b").log =
          [] ++ ["Weigths removed \x27" ++ ((["a"] : List String) ++ ["b"]).headI ++ "\x27"])
    ∧ ({"a"} : Finset String).card ≤ (flcCall ⟨⟨["a"], 1⟩, {"a"}, []⟩ "b").files.card + 1) :=
  ⟨by decide, filesLimitControl_evict_delete ⟨⟨["a"], 1⟩, {"a"}, []⟩ "b" (by decide)⟩

/-- Claim C10: a `FilesLimitControl` constructed with default arguments
has capacity 2, not the 3 stated by its docstring: registering a third
path on a default-constructed instance already evicts (and, when it
exists on disk, deletes) the first registered path. -/
theorem filesLimitControl_default_capacity :
    FilesLimitControl.mkNew.max_weights_to_save = 2
    ∧ flcRun ⟨FilesLimitControl.mkNew, {"w1", "w2", "w3"}, []⟩ ["w1", "w2", "w3"] =
      ⟨⟨["w2", "w3"], 2⟩, {"w2", "w3"}, ["Weigths removed \x27w1\x27"]⟩ := by
  refine ⟨rfl, ?_⟩
  decide

/-- A tensor: its shape (the ordered tuple of dimension sizes) and its
numeric payload. -/
structure Tensor where
  shape : List Nat
  data : List ℚ
deriving DecidableEq

/-- A Python dict of named tensors: an association list in insertion
order; Python dict keys are unique. -/
abbrev StateDict := List (String × Tensor)

/-- Python `key in d` and `d[key]`: the first binding of `key`. -/
def lookup? : StateDict → String → Option Tensor
  | [], _ => none
  | kv :: d, k => if kv.1 = k then some kv.2 else lookup? d k

/-- The per-key effect of the loop body of `load_pretrain_model`: take
the checkpoint value when the key is present there with an equal shape,
keep the freshly initialized value otherwise. -/
def mergeEntry (old_dict : StateDict) (kv : String × Tensor) : String × Tensor :=
  match lookup? old_dict kv.1 with
  | some w => if kv.2.shape = w.shape then (kv.1, w) else kv
  | none => kv

/-- The log message `'Weights {} were not loaded'.format(key)`. -/
def notLoadedMsg (key : String) : String :=
  "Weights " ++ key ++ " were not loaded"

/-- The per-key `logger.info` emission of the loop body: one message
for a key missing from the checkpoint or with a mismatched shape. -/
def mergeLog (old_dict : StateDict) (kv : String × Tensor) : Option String :=
  match lookup? old_dict kv.1 with
  | some w => if kv.2.shape = w.shape then none else some (notLoadedMsg kv.1)
  | none => some (notLoadedMsg kv.1)

/-- `load_pretrain_model` after a successful `torch.load`: the loop
iterates over `new_dict.items()` and assigns only at the current key,
whose keys are unique, so its effect on the dict is entry-wise
(`load_pretrain_model_loop` below is the literal loop; they agree).
Returns the merged dict and the emitted log lines. -/
def load_pretrain_model (old_dict new_dict : StateDict) : StateDict × List String :=
  (new_dict.map (mergeEntry old_dict), new_dict.filterMap (mergeLog old_dict))

/-- `load_pretrain_model` with the outcome of `torch.load(weights_path)`
made explicit: a failed read/deserialization propagates to the caller;
a successful one always produces the merged mapping. -/
def load_pretrain_model_from (torch_load : Except String StateDict)
    (model_state : StateDict) : Except String (StateDict × List String) :=
  match torch_load with
  | .error e => .error e
  | .ok old_dict => .ok (load_pretrain_model old_dict model_state)

theorem mergeEntry_fst (old_dict : StateDict) (kv : String × Tensor) :
    (mergeEntry old_dict kv).1 = kv.1 := by
  unfold mergeEntry
  rcases lookup? old_dict kv.1 with _ | w
  · rfl
  · dsimp only
    split <;> rfl

theorem lookup?_map_mergeEntry (old_dict d : StateDict) (k : String) :
    lookup? (d.map (mergeEntry old_dict)) k =
      (lookup? d k).map fun v =>
        match lookup? old_dict k with
        | some w => if v.shape = w.shape then w else v
        | none => v := by
  induction d with
  | nil => simp [lookup?]
  | cons kv d ih =>
      simp only [List.map_cons, lookup?]
      by_cases hk : kv.1 = k
      · rw [if_pos (by rw [mergeEntry_fst]; exact hk), if_pos hk]
        subst hk
        rcases hw : lookup? old_dict kv.1 with _ | w
        · simp [mergeEntry, hw]
        · simp only [mergeEntry, hw, Option.map_some]
          split <;> rename_i hsh <;> simp [hsh]
      · rw [if_neg (by rw [mergeEntry_fst]; exact hk), if_neg hk]
        exact ih

/-- Claim C1: the merged mapping returned by `load_pretrain_model` has
exactly the target key set (source-only keys are ignored), and maps
each target key to the source value when the key is present in the
source with an equal shape, and to the original target value
otherwise. -/
theorem load_pretrain_model_merge (old_dict new_dict : StateDict) (k : String) :
    (load_pretrain_model old_dict new_dict).1.map Prod.fst = new_dict.map Prod.fst
    ∧ lookup? (load_pretrain_model old_dict new_dict).1 k =
      (lookup? new_dict k).map fun v =>
        match lookup? old_dict k with
        | some w => if v.shape = w.shape then w else v
        | none => v := by
  constructor
  · simp only [load_pretrain_model, List.map_map]
    exact List.map_congr_left fun kv _ => mergeEntry_fst old_dict kv
  · exact lookup?_map_mergeEntry old_dict new_dict k

/-- Claim C4: after a successful checkpoint read, `load_pretrain_model`
never raises — a missing key or a shape mismatch is reported in the log
and the merged mapping is still returned — while a failed read
propagates to the caller. -/
theorem load_pretrain_model_no_raise (old_dict new_dict : StateDict)
    (k : String) (t : Tensor) (e : String)
    (hmem : (k, t) ∈ new_dict)
    (hfail : lookup? old_dict k = none ∨
      ∃ w, lookup? old_dict k = some w ∧ t.shape ≠ w.shape) :
    load_pretrain_model_from (.ok old_dict) new_dict =
      .ok (load_pretrain_model old_dict new_dict)
    ∧ load_pretrain_model_from (.error e) new_dict = .error e
    ∧ notLoadedMsg k ∈ (load_pretrain_model old_dict new_dict).2 := by
  refine ⟨rfl, rfl, ?_⟩
  simp only [load_pretrain_model]
  rw [List.mem_filterMap]
  refine ⟨(k, t), hmem, ?_⟩
  rcases hfail with hnone | ⟨w, hsome, hne⟩
  · simp [mergeLog, hnone]
  · simp [mergeLog, hsome, hne]

/-- Witness for `load_pretrain_model_no_raise` at a concrete input. -/
theorem load_pretrain_model_no_raise_witness :
    ((("a", Tensor.mk [2] [1, 2]) ∈ ([("a", Tensor.mk [2] [1, 2])] : StateDict)) ∧
      (lookup? [] "a" = none ∨
        ∃ w, lookup? [] "a" = some w ∧ (Tensor.mk [2] [1, 2]).shape ≠ w.shape)) ∧
    (load_pretrain_model_from (.ok []) [("a", Tensor.mk [2] [1, 2])] =
        .ok (load_pretrain_model [] [("a", Tensor.mk [2] [1, 2])])
      ∧ load_pretrain_model_from (.error "bad") [("a", Tensor.mk [2] [1, 2])] =
        .error "bad"
      ∧ notLoadedMsg "a" ∈ (load_pretrain_model [] [("a", Tensor.mk [2] [1, 2])]).2) :=
  ⟨⟨by simp, Or.inl rfl⟩,
   load_pretrain_model_no_raise [] [("a", Tensor.mk [2] [1, 2])] "a"
     (Tensor.mk [2] [1, 2]) "bad" (by simp) (Or.inl rfl)⟩

/-- Python dict assignment `d[k] = v`: replaces the value at an
existing key in place, keeping its position; appends otherwise. -/
def dictAssign (d : StateDict) (k : String) (v : Tensor) : StateDict :=
  if (lookup? d k).isSome then d.map fun kv => if kv.1 = k then (k, v) else kv
  else d ++ [(k, v)]

/-- The body of the `for key, weights in new_dict.items()` loop of
`load_pretrain_model`, threading the mutable state
`(old_dict, new_dict)`.  Only the `new_dict` component is ever
assigned to; `old_dict` is only read. -/
def loadLoopStep (st : StateDict × StateDict) (key : String) : StateDict × StateDict :=
  match lookup? st.1 key with
  | some w =>
    match lookup? st.2 key with
    | some v => if v.shape = w.shape then (st.1, dictAssign st.2 key w) else st
    | none => st
  | none => st

/-- The loop of `load_pretrain_model` as it is written in the source:
iterate over the keys of `new_dict` — the fresh mapping returned by
`model.state_dict()`, a new dict object on every call — mutating only
`new_dict`.  Returns the final `(old_dict, new_dict)` state. -/
def load_pretrain_model_loop (old_dict new_dict : StateDict) : StateDict × StateDict :=
  (new_dict.map Prod.fst).foldl loadLoopStep (old_dict, new_dict)

theorem loadLoopStep_fst (st : StateDict × StateDict) (key : String) :
    (loadLoopStep st key).1 = st.1 := by
  unfold loadLoopStep
  rcases lookup? st.1 key with _ | w
  · rfl
  · dsimp only
    rcases lookup? st.2 key with _ | v
    · rfl
    · dsimp only
      split <;> rfl

theorem loadLoop_foldl_fst (ks : List String) :
    ∀ st : StateDict × StateDict, (ks.foldl loadLoopStep st).1 = st.1 := by
  induction ks with
  | nil => intro st; rfl
  | cons k ks ih =>
      intro st
      rw [List.foldl_cons, ih, loadLoopStep_fst]

/-- Claim C5: the merge loop of `load_pretrain_model` never writes to
the checkpoint mapping `old_dict` — it only reads it — so the source
mapping is returned unchanged; the mapping it does assign into is the
fresh dict built by `model.state_dict()` inside the call, so neither
input mapping of the merge is mutated. -/
theorem load_pretrain_model_pure (old_dict new_dict : StateDict) :
    (load_pretrain_model_loop old_dict new_dict).1 = old_dict :=
  loadLoop_foldl_fst (new_dict.map Prod.fst) (old_dict, new_dict)

theorem lookup?_eq_none_iff (d : StateDict) (k : String) :
    lookup? d k = none ↔ ∀ kv ∈ d, kv.1 ≠ k := by
  induction d with
  | nil => simp [lookup?]
  | cons a d ih =>
      by_cases hk : a.1 = k
      · simp [lookup?, hk]
      · simp [lookup?, hk, ih]

theorem lookup?_of_mem_nodup (d : StateDict) (kv : String × Tensor)
    (h : (d.map Prod.fst).Nodup) (hmem : kv ∈ d) :
    lookup? d kv.1 = some kv.2 := by
  induction d with
  | nil => cases hmem
  | cons a d ih =>
      rw [List.map_cons, List.nodup_cons] at h
      rcases List.mem_cons.mp hmem with rfl | hmem2
      · simp [lookup?]
      · have hne : a.1 ≠ kv.1 := fun he =>
          h.1 (he ▸ List.mem_map_of_mem Prod.fst hmem2)
        simp [lookup?, hne, ih h.2 hmem2]

/-- One iteration of the loop body rewrites the dict entry-wise at the
current key (dict keys being unique) and leaves `old_dict` alone. -/
theorem loadLoopStep_snd (o d : StateDict) (k : String)
    (h : (d.map Prod.fst).Nodup) :
    loadLoopStep (o, d) k =
      (o, d.map fun kv => if kv.1 = k then mergeEntry o kv else kv) := by
  unfold loadLoopStep
  rcases ho : lookup? o k with _ | w
  · dsimp only
    congr 1
    have hpt : ∀ kv ∈ d, (if kv.1 = k then mergeEntry o kv else kv) = kv := by
      intro kv _
      by_cases hk : kv.1 = k
      · rw [if_pos hk]
        simp [mergeEntry, hk, ho]
      · rw [if_neg hk]
    have h1 : d.map (fun kv => if kv.1 = k then mergeEntry o kv else kv) =
        d.map (fun kv => kv) := List.map_congr_left hpt
    rw [h1, List.map_id']
  · dsimp only
    rcases hd : lookup? d k with _ | v
    · dsimp only
      have hnone := (lookup?_eq_none_iff d k).mp hd
      congr 1
      have hpt : ∀ kv ∈ d, (if kv.1 = k then mergeEntry o kv else kv) = kv := by
        intro kv hkv
        rw [if_neg (hnone kv hkv)]
      have h1 : d.map (fun kv => if kv.1 = k then mergeEntry o kv else kv) =
          d.map (fun kv => kv) := List.map_congr_left hpt
      rw [h1, List.map_id']
    · dsimp only
      split
      · rename_i hsh
        congr 1
        unfold dictAssign
        rw [hd]
        simp only [Option.isSome_some, if_true]
        apply List.map_congr_left
        intro kv hkv
        by_cases hk : kv.1 = k
        · rw [if_pos hk, if_pos hk]
          have hkv2 : kv.2 = v := by
            have hlk := lookup?_of_mem_nodup d kv h hkv
            rw [hk, hd] at hlk
            exact (Option.some_inj.mp hlk).symm
          have hme : mergeEntry o kv = (kv.1, w) := by
            simp [mergeEntry, hk, ho, hkv2, hsh]
          rw [hme, hk]
        · rw [if_neg hk, if_neg hk]
      · rename_i hsh
        congr 1
        have hpt : ∀ kv ∈ d, (if kv.1 = k then mergeEntry o kv else kv) = kv := by
          intro kv hkv
          by_cases hk : kv.1 = k
          · rw [if_pos hk]
            have hkv2 : kv.2 = v := by
              have hlk := lookup?_of_mem_nodup d kv h hkv
              rw [hk, hd] at hlk
              exact (Option.some_inj.mp hlk).symm
            simp [mergeEntry, hk, ho, hkv2, hsh]
          · rw [if_neg hk]
        have h1 : d.map (fun kv => if kv.1 = k then mergeEntry o kv else kv) =
            d.map (fun kv => kv) := List.map_congr_left hpt
        rw [h1, List.map_id']

theorem loadLoop_foldl_map (o : StateDict) (ks : List String) :
    ∀ d : StateDict, ks.Nodup → (d.map Prod.fst).Nodup →
    (ks.foldl loadLoopStep (o, d)).2 =
      d.map fun kv => if kv.1 ∈ ks then mergeEntry o kv else kv := by
  induction ks with
  | nil =>
      intro d _ _
      simp
  | cons k ks ih =>
      intro d hks hd
      rw [List.foldl_cons, loadLoopStep_snd o d k hd]
      rw [List.nodup_cons] at hks
      have hfst : ∀ kv ∈ d,
          (Prod.fst ∘ fun kv => if kv.1 = k then mergeEntry o kv else kv) kv =
            Prod.fst kv := by
        intro kv _
        by_cases hk : kv.1 = k
        · simp [hk, mergeEntry_fst]
        · simp [hk]
      have hd1 : ((d.map fun kv =>
          if kv.1 = k then mergeEntry o kv else kv).map Prod.fst).Nodup := by
        rw [List.map_map, List.map_congr_left hfst]
        exact hd
      rw [ih _ hks.2 hd1, List.map_map]
      apply List.map_congr_left
      intro kv hkv
      by_cases hk : kv.1 = k
      · simp only [Function.comp_apply, if_pos hk]
        rw [if_neg (by rw [mergeEntry_fst, hk]; exact hks.1),
          if_pos (by rw [hk]; exact List.mem_cons_self k ks)]
      · simp only [Function.comp_apply, if_neg hk]
        by_cases hmem : kv.1 ∈ ks
        · rw [if_pos hmem, if_pos (List.mem_cons_of_mem k hmem)]
        · rw [if_neg hmem, if_neg (by simp [hk, hmem])]

/-- The literal source loop computes the same merged mapping as the
entry-wise `load_pretrain_model` (Python dict keys are unique). -/
theorem load_pretrain_model_loop_eq (old_dict new_dict : StateDict)
    (h : (new_dict.map Prod.fst).Nodup) :
    (load_pretrain_model_loop old_dict new_dict).2 =
      (load_pretrain_model old_dict new_dict).1 := by
  unfold load_pretrain_model_loop load_pretrain_model
  rw [loadLoop_foldl_map old_dict _ new_dict h h]
  dsimp only
  apply List.map_congr_left
  intro kv hkv
  rw [if_pos (List.mem_map_of_mem Prod.fst hkv)]

/-- `sec2min(s)`: `'%dm %ds'` with `m = floor(s/60)` and the remaining
seconds `s - 60*m`; `%d` truncates its argument, and the remainder lies
in `[0, 60)`, so truncation is the floor. -/
def sec2min (s : ℚ) : String :=
  let m : ℤ := ⌊s / 60⌋
  let s2 := s - m * 60
  toString m ++ "m " ++ toString ⌊s2⌋ ++ "s"

/-- The content of the single `logger.info` line emitted at the end of
`val_loop`: the `sec2min`-formatted elapsed time and the three final
averages. -/
structure ValLogLine where
  loop_time : String
  acc : ℚ
  wer : ℚ
  cer : ℚ
deriving DecidableEq

/-- One pass of the `for images, texts, _, _ in loader` loop of
`val_loop`, threading the three meters.  The external `predict`,
`get_accuracy`, `wer` and `cer` collaborators are opaque parameters; a
batch is its images payload plus its text list, and each meter update
is weighted by `batch_size = len(texts)` (`none` = an uncaught
`ZeroDivisionError` from `update`). -/
def val_loop_fold {α : Type} (predict : α → List String)
    (get_accuracy wer cer : List String → List String → ℚ) :
    AverageMeter × AverageMeter × AverageMeter → List (α × List String) →
      Option (AverageMeter × AverageMeter × AverageMeter)
  | ms, [] => some ms
  | ms, (images, texts) :: rest =>
    (ms.1.update (get_accuracy texts (predict images)) (texts.length : ℚ)).bind fun a =>
    (ms.2.1.update (wer texts (predict images)) (texts.length : ℚ)).bind fun w =>
    (ms.2.2.update (cer texts (predict images)) (texts.length : ℚ)).bind fun c =>
    val_loop_fold predict get_accuracy wer cer (a, w, c) rest

/-- `val_loop`: run the metric loop over the batches starting from
three freshly constructed meters, log the elapsed time and the three
averages, and return `acc_avg.avg`.  The elapsed wall-clock seconds are
an opaque parameter. -/
def val_loop {α : Type} (predict : α → List String)
    (get_accuracy wer cer : List String → List String → ℚ)
    (elapsed : ℚ) (batches : List (α × List String)) : Option (ℚ × ValLogLine) :=
  (val_loop_fold predict get_accuracy wer cer
      (initMeter, initMeter, initMeter) batches).map
    fun ms => (ms.1.avg, ⟨sec2min elapsed, ms.1.avg, ms.2.1.avg, ms.2.2.avg⟩)

/-- The `(value, weight)` stream that a single meter sees during
`val_loop`, for the metric function `f`. -/
def metricEntries {α : Type} (predict : α → List String)
    (f : List String → List String → ℚ) (batches : List (α × List String)) :
    List (ℚ × ℚ) :=
  batches.map fun b => (f b.2 (predict b.1), (b.2.length : ℚ))

@[simp]
theorem metricEntries_nil {α : Type} (predict : α → List String)
    (f : List String → List String → ℚ) : metricEntries predict f [] = [] := rfl

@[simp]
theorem metricEntries_cons {α : Type} (predict : α → List String)
    (f : List String → List String → ℚ) (b : α × List String)
    (l : List (α × List String)) :
    metricEntries predict f (b :: l) =
      (f b.2 (predict b.1), (b.2.length : ℚ)) :: metricEntries predict f l := rfl

/-- The interleaved three-meter loop is the product of the three
independent `updateAll` runs (each meter sees only its own stream, and
a raised update aborts all of them). -/
theorem val_loop_fold_eq {α : Type} (predict : α → List String)
    (get_accuracy wer cer : List String → List String → ℚ)
    (batches : List (α × List String)) :
    ∀ ms : AverageMeter × AverageMeter × AverageMeter,
    val_loop_fold predict get_accuracy wer cer ms batches =
      (updateAll ms.1 (metricEntries predict get_accuracy batches)).bind fun a =>
      (updateAll ms.2.1 (metricEntries predict wer batches)).bind fun w =>
      (updateAll ms.2.2 (metricEntries predict cer batches)).map fun c => (a, w, c) := by
  induction batches with
  | nil => intro ms; simp [val_loop_fold, updateAll]
  | cons b rest ih =>
      intro ms
      obtain ⟨images, texts⟩ := b
      simp only [val_loop_fold, updateAll, metricEntries_cons]
      rcases ha : ms.1.update (get_accuracy texts (predict images)) (texts.length : ℚ)
        with _ | a
      · simp [ha]
      simp only [ha, Option.some_bind]
      rcases hw2 : ms.2.1.update (wer texts (predict images)) (texts.length : ℚ)
        with _ | w2
      · simp [hw2]
      simp only [hw2, Option.some_bind]
      rcases hc2 : ms.2.2.update (cer texts (predict images)) (texts.length : ℚ)
        with _ | c2
      · simp [hc2]
      simp only [hc2, Option.some_bind]
      exact ih (a, w2, c2)

/-- From a fresh meter, a stream with nonnegative weights whose first
weight is positive never raises and accumulates the weighted sums (for
the empty stream `0 / 0 = 0` coincides with the reset average). -/
theorem updateAll_init (l : List (ℚ × ℚ)) (h0 : ∀ p ∈ l, 0 ≤ p.2)
    (h1 : l ≠ [] → 0 < l.headI.2) :
    updateAll initMeter l =
      some { avg := wsum l / wtot l, sum := wsum l, count := wtot l } := by
  cases l with
  | nil => simp [updateAll, initMeter, AverageMeter.reset, wsum, wtot]
  | cons p l =>
      have hp : 0 < p.2 := by simpa using h1 (by simp)
      have hp' : p.2 ≠ 0 := ne_of_gt hp
      have hstep : initMeter.update p.1 p.2 =
          some { avg := p.1 * p.2 / p.2, sum := p.1 * p.2, count := p.2 } := by
        simp [AverageMeter.update, initMeter, AverageMeter.reset, hp']
      have htail := updateAll_pos l { avg := p.1 * p.2 / p.2, sum := p.1 * p.2, count := p.2 }
        hp (fun q hq => h0 q (by simp [hq]))
      rcases htail with htail | ⟨hnil, htail⟩
      · simp only [updateAll, hstep, Option.some_bind, htail, wsum_cons, wtot_cons]
      · subst hnil
        simp only [updateAll, hstep, Option.some_bind, htail]
        simp [wsum, wtot]

/-- Claim C9 (amended): for every batch sequence that is empty or whose
first batch has a nonempty text list, `val_loop` produces the
batch-size-weighted average of each of the three metrics across the
whole sequence — the weight of a batch is the length of its text list —
returning the accuracy average together with one log line carrying the
`sec2min`-formatted elapsed wall-clock time and the three averages.  On
a sequence whose first batch has an empty text list the very first
meter update divides by zero and the call raises instead. -/
theorem val_loop_weighted_averages {α : Type} (predict : α → List String)
    (get_accuracy wer cer : List String → List String → ℚ) (elapsed : ℚ)
    (batches : List (α × List String))
    (h : ∀ b ∈ batches.take 1, b.2 ≠ ([] : List String)) :
    val_loop predict get_accuracy wer cer elapsed batches =
      some (wsum (metricEntries predict get_accuracy batches) /
              wtot (metricEntries predict get_accuracy batches),
            ⟨sec2min elapsed,
             wsum (metricEntries predict get_accuracy batches) /
               wtot (metricEntries predict get_accuracy batches),
             wsum (metricEntries predict wer batches) /
               wtot (metricEntries predict wer batches),
             wsum (metricEntries predict cer batches) /
               wtot (metricEntries predict cer batches)⟩) := by
  unfold val_loop
  rw [val_loop_fold_eq]
  have hup : ∀ f : List String → List String → ℚ,
      updateAll initMeter (metricEntries predict f batches) =
        some { avg := wsum (metricEntries predict f batches) /
                        wtot (metricEntries predict f batches),
               sum := wsum (metricEntries predict f batches),
               count := wtot (metricEntries predict f batches) } := by
    intro f
    apply updateAll_init
    · intro p hp
      obtain ⟨b, _, rfl⟩ := List.mem_map.mp hp
      exact Nat.cast_nonneg _
    · intro hne
      cases batches with
      | nil => simp at hne
      | cons b rest =>
          have hb := h b (by simp)
          simp only [metricEntries_cons, List.headI]
          exact_mod_cast List.length_pos.mpr hb
  rw [hup get_accuracy, hup wer, hup cer]
  simp

/-- Witness for `val_loop_weighted_averages` at a concrete input. -/
theorem val_loop_weighted_averages_witness :
    (∀ b ∈ ([((), ["x"])] : List (Unit × List String)).take 1, b.2 ≠ ([] : List String)) ∧
    val_loop (fun _ : Unit => ([] : List String)) (fun _ _ => (1:ℚ)) (fun _ _ => 0)
        (fun _ _ => 0) 0 [((), ["x"])] =
      some (wsum (metricEntries (fun _ : Unit => ([] : List String))
                (fun _ _ => (1:ℚ)) [((), ["x"])]) /
              wtot (metricEntries (fun _ : Unit => ([] : List String))
                (fun _ _ => (1:ℚ)) [((), ["x"])]),
            ⟨sec2min 0,
             wsum (metricEntries (fun _ : Unit => ([] : List String))
                 (fun _ _ => (1:ℚ)) [((), ["x"])]) /
               wtot (metricEntries (fun _ : Unit => ([] : List String))
                 (fun _ _ => (1:ℚ)) [((), ["x"])]),
             wsum (metricEntries (fun _ : Unit => ([] : List String))
                 (fun _ _ => (0:ℚ)) [((), ["x"])]) /
               wtot (metricEntries (fun _ : Unit => ([] : List String))
                 (fun _ _ => (0:ℚ)) [((), ["x"])]),
             wsum (metricEntries (fun _ : Unit => ([] : List String))
                 (fun _ _ => (0:ℚ)) [((), ["x"])]) /
               wtot (metricEntries (fun _ : Unit => ([] : List String))
                 (fun _ _ => (0:ℚ)) [((), ["x"])])⟩) :=
  ⟨by simp,
   val_loop_weighted_averages (fun _ : Unit => ([] : List String)) (fun _ _ => (1:ℚ))
     (fun _ _ => 0) (fun _ _ => 0) 0 [((), ["x"])] (by simp)⟩

/-- Claim C9 counterexample: on the input sequence consisting of a
single batch whose text list is empty, the first meter update computes
`avg = 0 / 0` and `val_loop` raises `ZeroDivisionError` instead of
producing the weighted averages, so the claim does not hold for every
input sequence of batches. -/
theorem val_loop_empty_first_batch_fails :
    val_loop (fun _ : Unit => ([] : List String)) (fun _ _ => 0) (fun _ _ => 0)
      (fun _ _ => 0) 0 [((), ([] : List String))] = none := by
  simp [val_loop, val_loop_fold, AverageMeter.update, initMeter, AverageMeter.reset]
